import Mathlib

/-!
Verification development for the Straeto bus-schedule package
(src/straeto/straeto.py). The Python classes and functions are shallowly
embedded as executable Lean definitions, and the specification claims are
settled as theorems about those definitions.

Modelling conventions:
* a Python `(h, m, s)` time tuple is the structure `Hms`; Python's
  lexicographic tuple comparison is `hmsLt` / `hmsLe`;
* Python `datetime` instants are rationals (seconds, with fractional part,
  since midnight of the service day); `float` arithmetic on distances and
  durations is modelled with exact rationals;
* Python dicts (insertion ordered) are association lists with
  update-in-place / append-at-end semantics;
* the Haversine `distance` function is kept abstract (a parameter of the
  definitions that use it): the claims under study depend only on the
  values it returns, never on its analytic form.
-/

/-- A Python `(hour, minute, second)` tuple. The hour may be `>= 24`
(post-midnight service on the same service day). -/
structure Hms where
  h : Nat
  m : Nat
  s : Nat
deriving DecidableEq

/-- Python lexicographic tuple comparison `hms1 < hms2`. -/
def hmsLt (a b : Hms) : Bool :=
  decide (a.h < b.h ∨ (a.h = b.h ∧ (a.m < b.m ∨ (a.m = b.m ∧ a.s < b.s))))

/-- Python lexicographic tuple comparison `hms1 <= hms2`. -/
def hmsLe (a b : Hms) : Bool :=
  decide (a.h < b.h ∨ (a.h = b.h ∧ (a.m < b.m ∨ (a.m = b.m ∧ a.s ≤ b.s))))

/-- Seconds denoted by an `(h, m, s)` tuple read as a clock time. -/
def secOfHms (x : Hms) : Nat :=
  3600 * x.h + 60 * x.m + x.s

/-- A well-formed time tuple has minutes and seconds below 60. -/
def validHms (x : Hms) : Prop :=
  x.m < 60 ∧ x.s < 60

instance (x : Hms) : Decidable (validHms x) :=
  inferInstanceAs (Decidable (x.m < 60 ∧ x.s < 60))

/-- The absolute instant (seconds from today's midnight) that the inner
`diff` helper of `BusSchedule.predicted_arrival` assigns to a tuple:
tuples with `h >= 24` are mapped to `today + 1 day` with `h - 24` hours,
exactly as in the source. -/
def pySec (x : Hms) : Int :=
  if 24 ≤ x.h then
    86400 + (((x.h : Int) - 24) * 3600 + (x.m : Int) * 60 + (x.s : Int))
  else
    (x.h : Int) * 3600 + (x.m : Int) * 60 + (x.s : Int)

/-- The inner `diff(hms1, hms2)` helper of `predicted_arrival`: the number
of seconds from `hms1` to `hms2`. -/
def pyDiff (a b : Hms) : Int :=
  pySec b - pySec a

theorem pySec_eq (x : Hms) : pySec x = (secOfHms x : Int) := by
  unfold pySec secOfHms
  split <;> push_cast <;> omega

/-- Class `BusHalt`: a scheduled stop-visit of a trip, with its 1-based stop
sequence number and arrival time (departure time equals arrival time in
the source). -/
structure BusHalt where
  trip_id : String
  stop_id : String
  stop_seq : Nat
  arrival_time : Hms
deriving DecidableEq

/-- Method `BusHalt.time_to`: seconds between the arrival times of two halts
(`datetime.combine` of the two arrival times on the same day, subtracted). -/
def BusHalt.time_to (a b : BusHalt) : Int :=
  (secOfHms b.arrival_time : Int) - (secOfHms a.arrival_time : Int)

/-- Lookup in an insertion-ordered association list (Python `dict.get`). -/
def assocLookup {β : Type} (k : String) : List (String × β) → Option β
  | [] => none
  | (k', v) :: rest => if k' = k then some v else assocLookup k rest

/-- Python `d[k] = v` on an insertion-ordered dict: overwrite in place if
the key exists, else append the new key at the end. -/
def assocSet {β : Type} (l : List (String × β)) (k : String) (v : β) :
    List (String × β) :=
  match l with
  | [] => [(k, v)]
  | (k', v') :: rest =>
      if k' = k then (k, v) :: rest else (k', v') :: assocSet rest k v

/-- Python `defaultdict` read-modify-write `d[k] = f(d[k])` with default
value `dflt` for a missing key. -/
def assocUpdate {β : Type} (l : List (String × β)) (k : String) (dflt : β)
    (f : β → β) : List (String × β) :=
  match l with
  | [] => [(k, f dflt)]
  | (k', v) :: rest =>
      if k' = k then (k', f v) :: rest else (k', v) :: assocUpdate rest k dflt f

theorem assocLookup_set_self {β : Type} (l : List (String × β)) (k : String)
    (v : β) : assocLookup k (assocSet l k v) = some v := by
  induction l with
  | nil => simp [assocSet, assocLookup]
  | cons p rest ih =>
      obtain ⟨k', v'⟩ := p
      by_cases hk : k' = k <;> simp [assocSet, assocLookup, hk, ih]

theorem assocLookup_set_other {β : Type} (l : List (String × β)) (k k' : String)
    (v : β) (hne : k' ≠ k) :
    assocLookup k' (assocSet l k v) = assocLookup k' l := by
  have hne' : ¬ k = k' := fun h => hne h.symm
  induction l with
  | nil =>
      simp [assocSet, assocLookup, hne']
  | cons p rest ih =>
      obtain ⟨k0, v0⟩ := p
      by_cases hk : k0 = k
      · subst hk
        simp [assocSet, assocLookup, hne']
      · simp [assocSet, assocLookup, hk, ih]

theorem assocSet_mem {β : Type} (l : List (String × β)) (k : String) (v : β) :
    ∀ p ∈ assocSet l k v, p ∈ l ∨ p = (k, v) := by
  induction l with
  | nil => simp [assocSet]
  | cons q rest ih =>
      obtain ⟨k', v'⟩ := q
      intro p hp
      by_cases hk : k' = k
      · simp only [assocSet, hk, if_pos rfl] at hp
        rcases List.mem_cons.1 hp with h | h
        · exact Or.inr h
        · exact Or.inl (List.mem_cons_of_mem _ h)
      · simp only [assocSet, if_neg hk] at hp
        rcases List.mem_cons.1 hp with h | h
        · exact Or.inl (h ▸ List.mem_cons_self _ _)
        · rcases ih p h with h' | h'
          · exact Or.inl (List.mem_cons_of_mem _ h')
          · exact Or.inr h'

/-- The progress-ratio computation of `predicted_arrival`: `0.0` when the
two stops are less than `0.001` km (1 m) apart, otherwise
`min(d_bus / d_stops, 1.0)`. -/
def d_ratio_val (d_bus d_stops : ℚ) : ℚ :=
  if d_stops < 1/1000 then 0 else min (d_bus / d_stops) 1

/-- C8: the progress ratio computed by `predicted_arrival` always lies in
`[0, 1]`; it is `0` whenever the current stop and the next stop are within
1 meter (0.001 km) of each other (the threshold test is `d_stops < 0.001`,
so the division below is only ever performed with a denominator of at
least 0.001); otherwise it equals `min(d_bus / d_stops, 1)`. The distance
from the bus to the next stop is nonnegative, being a Haversine distance. -/
theorem c8_ratio_clamped (d_bus d_stops : ℚ) (hbus : 0 ≤ d_bus) :
    0 ≤ d_ratio_val d_bus d_stops ∧ d_ratio_val d_bus d_stops ≤ 1 ∧
      (d_stops < 1/1000 → d_ratio_val d_bus d_stops = 0) ∧
      (1/1000 ≤ d_stops →
        d_ratio_val d_bus d_stops = min (d_bus / d_stops) 1) := by
  unfold d_ratio_val
  by_cases hlt : d_stops < 1/1000
  · rw [if_pos hlt]
    exact ⟨le_refl 0, zero_le_one, fun _ => rfl,
      fun hge => absurd hlt (not_lt.2 hge)⟩
  · have hpos : (0 : ℚ) < d_stops := lt_of_lt_of_le (by norm_num) (not_lt.1 hlt)
    rw [if_neg hlt]
    exact ⟨le_min (div_nonneg hbus hpos.le) zero_le_one, min_le_right _ _,
      fun h => absurd h hlt, fun _ => rfl⟩

/-- Witness for C8 at a concrete input. -/
theorem c8_ratio_clamped_witness :
    0 ≤ d_ratio_val 2 4 ∧ d_ratio_val 2 4 ≤ 1 ∧
      ((4 : ℚ) < 1/1000 → d_ratio_val 2 4 = 0) ∧
      ((1 : ℚ)/1000 ≤ 4 → d_ratio_val 2 4 = min ((2 : ℚ) / 4) 1) :=
  c8_ratio_clamped 2 4 (by norm_num)

/-! ### Trip halt ingestion (`BusTrip._add_halt` / `BusTrip._initialize`)

The trip stores its halts in a `defaultdict` keyed by arrival time
(Python dicts iterate in key-insertion order; each value list grows by
`append`). The finalize step flattens this dict and sorts the resulting
`(hms, halt)` pairs by stop-sequence number with Python's stable sort,
then collects the consecutive-stop pairs from adjacent entries. -/

/-- The `self._halts[arrival].append(halt)` update: append to the list of
an existing arrival-time key, or add the key at the end of the dict. -/
def addToDict (d : List (Hms × List BusHalt)) (halt : BusHalt) :
    List (Hms × List BusHalt) :=
  match d with
  | [] => [(halt.arrival_time, [halt])]
  | (k, hs) :: rest =>
      if k = halt.arrival_time then (k, hs ++ [halt]) :: rest
      else (k, hs) :: addToDict rest halt

/-- The halts dict of a trip after ingesting the given halts in order. -/
def buildHalts (halts : List BusHalt) : List (Hms × List BusHalt) :=
  halts.foldl addToDict []

/-- The flattening loop of `BusTrip._initialize`: `for hms, halts in
self._halts.items(): for halt in halts: h.append((hms, halt))`. -/
def flattenHalts (d : List (Hms × List BusHalt)) : List (Hms × BusHalt) :=
  d.flatMap (fun p => p.2.map (fun h => (p.1, h)))

/-- The sort key of `BusTrip._initialize`: stop-sequence order. -/
def seqLe (x y : Hms × BusHalt) : Prop :=
  x.2.stop_seq ≤ y.2.stop_seq

instance : DecidableRel seqLe := fun _ _ => Nat.decLe _ _

instance : IsTotal (Hms × BusHalt) seqLe :=
  ⟨fun _ _ => Nat.le_total _ _⟩

instance : IsTrans (Hms × BusHalt) seqLe :=
  ⟨fun _ _ _ => Nat.le_trans⟩

/-- Strict stop-sequence order, used to compare sorted halt lists. -/
def seqLt (x y : Hms × BusHalt) : Prop :=
  x.2.stop_seq < y.2.stop_seq

instance : IsAntisymm (Hms × BusHalt) seqLt :=
  ⟨fun _ _ h1 h2 => absurd (Nat.lt_trans h1 h2) (Nat.lt_irrefl _)⟩

/-- The sort `h.sort(key=lambda item: item[1].stop_seq)` of `BusTrip._initialize`:
a stable sort by stop-sequence number (Python's list sort is stable;
`insertionSort` with a non-strict key relation is its faithful model). -/
def trip_sorted_halts (halts : List BusHalt) : List (Hms × BusHalt) :=
  List.insertionSort seqLe (flattenHalts (buildHalts halts))

/-- The consecutive-stop pairs collected from adjacent entries of the
sorted halt list. -/
def consecPairs (l : List (Hms × BusHalt)) : List (String × String) :=
  (l.zip l.tail).map (fun p => (p.1.2.stop_id, p.2.2.stop_id))

/-- The trip's consecutive-stop-pair set after finalization. -/
def trip_consecutive_stops (halts : List BusHalt) : List (String × String) :=
  consecPairs (trip_sorted_halts halts)

theorem flattenHalts_cons (k : Hms) (hs : List BusHalt)
    (rest : List (Hms × List BusHalt)) :
    flattenHalts ((k, hs) :: rest) =
      hs.map (fun h => (k, h)) ++ flattenHalts rest := rfl

theorem flattenHalts_addToDict (d : List (Hms × List BusHalt)) (halt : BusHalt) :
    (flattenHalts (addToDict d halt)).Perm
      ((halt.arrival_time, halt) :: flattenHalts d) := by
  induction d with
  | nil => exact List.Perm.refl _
  | cons p rest ih =>
      obtain ⟨k, hs⟩ := p
      by_cases hk : k = halt.arrival_time
      · subst hk
        have hstep : addToDict ((halt.arrival_time, hs) :: rest) halt
            = (halt.arrival_time, hs ++ [halt]) :: rest := by
          simp [addToDict]
        rw [hstep, flattenHalts_cons, flattenHalts_cons, List.map_append,
          List.append_assoc]
        exact List.perm_middle
      · have hstep : addToDict ((k, hs) :: rest) halt
            = (k, hs) :: addToDict rest halt := by
          simp [addToDict, hk]
        rw [hstep, flattenHalts_cons, flattenHalts_cons]
        exact (ih.append_left _).trans List.perm_middle

theorem flattenHalts_foldl (l : List BusHalt) :
    ∀ d, (flattenHalts (l.foldl addToDict d)).Perm
      (flattenHalts d ++ l.map (fun h => (h.arrival_time, h))) := by
  induction l with
  | nil =>
      intro d
      simp only [List.foldl_nil, List.map_nil, List.append_nil]
      exact List.Perm.refl _
  | cons x l ih =>
      intro d
      simp only [List.foldl_cons, List.map_cons]
      refine ((ih (addToDict d x)).trans ?_)
      refine (((flattenHalts_addToDict d x).append_right _).trans ?_)
      exact List.perm_middle.symm

theorem trip_sorted_halts_perm (l : List BusHalt) :
    (trip_sorted_halts l).Perm (l.map (fun h => (h.arrival_time, h))) := by
  unfold trip_sorted_halts buildHalts
  exact (List.perm_insertionSort seqLe _).trans
    ((flattenHalts_foldl l []).trans (by simp [flattenHalts]))

/-- C5: ingesting a trip's halts in any permuted order and finalizing
yields the same sorted-by-sequence halt list and the same
consecutive-stop-pair list, provided the halts carry pairwise-distinct
stop-sequence numbers; moreover the finalized halt list is ascending in
stop-sequence order (the sort key is the sequence number, not the arrival
time), so the consecutive-stop pairs are determined by stop-sequence
order. -/
theorem c5_halt_ingest_perm_invariant (l1 l2 : List BusHalt)
    (hperm : l1.Perm l2) (hnodup : (l1.map BusHalt.stop_seq).Nodup) :
    trip_sorted_halts l1 = trip_sorted_halts l2 ∧
      trip_consecutive_stops l1 = trip_consecutive_stops l2 ∧
      (trip_sorted_halts l1).Pairwise seqLe := by
  have hsorted1 : (trip_sorted_halts l1).Pairwise seqLe :=
    List.sorted_insertionSort seqLe _
  have hsorted2 : (trip_sorted_halts l2).Pairwise seqLe :=
    List.sorted_insertionSort seqLe _
  have hp12 : (trip_sorted_halts l1).Perm (trip_sorted_halts l2) :=
    (trip_sorted_halts_perm l1).trans
      ((hperm.map _).trans (trip_sorted_halts_perm l2).symm)
  -- distinct sequence numbers transfer to the sorted list
  have hnd1 : ((trip_sorted_halts l1).map (fun p => p.2.stop_seq)).Nodup := by
    have : ((trip_sorted_halts l1).map (fun p => p.2.stop_seq)).Perm
        (l1.map BusHalt.stop_seq) := by
      have := (trip_sorted_halts_perm l1).map (fun p => p.2.stop_seq)
      simpa [Function.comp, BusHalt.stop_seq] using this
    exact this.nodup_iff.2 hnodup
  have hpairne1 : (trip_sorted_halts l1).Pairwise
      (fun a b => a.2.stop_seq ≠ b.2.stop_seq) :=
    List.pairwise_map.1 hnd1
  have hnd2 : ((trip_sorted_halts l2).map (fun p => p.2.stop_seq)).Nodup := by
    have := hp12.map (fun p => p.2.stop_seq)
    exact this.nodup_iff.1 hnd1
  have hpairne2 : (trip_sorted_halts l2).Pairwise
      (fun a b => a.2.stop_seq ≠ b.2.stop_seq) :=
    List.pairwise_map.1 hnd2
  have hlt1 : (trip_sorted_halts l1).Pairwise seqLt :=
    (hsorted1.and hpairne1).imp
      (fun h => Nat.lt_of_le_of_ne h.1 h.2)
  have hlt2 : (trip_sorted_halts l2).Pairwise seqLt :=
    (hsorted2.and hpairne2).imp
      (fun h => Nat.lt_of_le_of_ne h.1 h.2)
  have heq : trip_sorted_halts l1 = trip_sorted_halts l2 :=
    List.eq_of_perm_of_sorted hp12 hlt1 hlt2
  exact ⟨heq, by rw [trip_consecutive_stops, trip_consecutive_stops, heq],
    hsorted1⟩

/-- Witness for C5 on two concrete permuted ingestion orders. -/
theorem c5_halt_ingest_perm_invariant_witness :
    trip_sorted_halts
        [⟨"t", "B", 2, ⟨8, 10, 0⟩⟩, ⟨"t", "A", 1, ⟨8, 0, 0⟩⟩] =
      trip_sorted_halts
        [⟨"t", "A", 1, ⟨8, 0, 0⟩⟩, ⟨"t", "B", 2, ⟨8, 10, 0⟩⟩] ∧
    trip_consecutive_stops
        [⟨"t", "B", 2, ⟨8, 10, 0⟩⟩, ⟨"t", "A", 1, ⟨8, 0, 0⟩⟩] =
      trip_consecutive_stops
        [⟨"t", "A", 1, ⟨8, 0, 0⟩⟩, ⟨"t", "B", 2, ⟨8, 10, 0⟩⟩] ∧
    (trip_sorted_halts
        [⟨"t", "B", 2, ⟨8, 10, 0⟩⟩, ⟨"t", "A", 1, ⟨8, 0, 0⟩⟩]).Pairwise seqLe :=
  c5_halt_ingest_perm_invariant
    [⟨"t", "B", 2, ⟨8, 10, 0⟩⟩, ⟨"t", "A", 1, ⟨8, 0, 0⟩⟩]
    [⟨"t", "A", 1, ⟨8, 0, 0⟩⟩, ⟨"t", "B", 2, ⟨8, 10, 0⟩⟩]
    (by decide) (by decide)

/-! ### Services and the calendar (`BusService`, `BusCalendar`) -/

/-- Strip the `vmh_` prefix from a raw schedule code, as in
`BusService.__init__` (string operations are modelled on the character
list). -/
def stripVmh (schedule : String) : String :=
  if schedule.toList.take 4 = ['v', 'm', 'h', '_'] then
    (schedule.toList.drop 4).asString
  else schedule

/-- The `date(int(schedule[0:4]), int(schedule[4:6]), int(schedule[6:8]))`
decoding of the validity start date (`none` when a slice is not numeric). -/
def decodeValidFrom (schedule : String) : Option (Nat × Nat × Nat) :=
  match ((schedule.toList.drop 0).take 4).asString.toNat?,
      ((schedule.toList.drop 4).take 2).asString.toNat?,
      ((schedule.toList.drop 6).take 2).asString.toNat? with
  | some y, some mo, some d => some (y, mo, d)
  | _, _, _ => none

/-- The `[c != "-" for c in schedule[9:16]]` weekday-vector decoding. -/
def decodeWeekdays (schedule : String) : List Bool :=
  ((schedule.toList.drop 9).take 7).map (fun c => c != '-')

/-- Class `BusService`: its full identifier, the raw service key (the schedule
code with any `vmh_` prefix stripped), and the informational decoded
fields. -/
structure BusService where
  id : String
  service : String
  valid_from : Option (Nat × Nat × Nat)
  weekdays : List Bool
deriving DecidableEq

/-- Construction of a `BusService` from a route id and the raw (non-unique)
schedule code, following `BusService.__init__` (the source receives the
composite id `route_id + "/" + code` and splits it again at the slash). -/
def mkBusService (route_id schedule_code : String) : BusService :=
  let schedule := stripVmh schedule_code
  { id := route_id ++ "/" ++ schedule_code
    service := schedule
    valid_from := decodeValidFrom schedule
    weekdays := decodeWeekdays schedule }

/-- Table `BusCalendar._calendar`: dates mapped to the service keys active on
each date (a Python set, modelled as the list of its members). -/
abbrev BusCalendar := List ((Nat × Nat × Nat) × List String)

/-- Method `BusCalendar.lookup`: the set of service keys active on a date
(empty for an absent date). -/
def calendarLookup (cal : BusCalendar) (d : Nat × Nat × Nat) : List String :=
  match cal with
  | [] => []
  | (d', svcs) :: rest => if d' = d then svcs else calendarLookup rest d

/-- Method `BusService.is_active_on_date`: membership of the raw service key in
the calendar set for the date (the commented-out `valid_from` and weekday
conjuncts of the source are absent). -/
def is_active_on_date (cal : BusCalendar) (svc : BusService)
    (d : Nat × Nat × Nat) : Bool :=
  decide (svc.service ∈ calendarLookup cal d)

/-- C7: a service is active on a date exactly when its raw service key
(the schedule code with any `vmh_` prefix stripped) belongs to the
calendar set for that date; and any two services with the same raw key
have the same activity on every date, so the decoded validity start date
and weekday vector have no effect on the result. -/
theorem c7_service_activity (cal : BusCalendar) (d : Nat × Nat × Nat)
    (route_id code : String) (svc1 svc2 : BusService)
    (h1 : svc1 = mkBusService route_id code)
    (h2 : svc2.service = svc1.service) :
    (is_active_on_date cal svc1 d = true ↔
      stripVmh code ∈ calendarLookup cal d) ∧
    is_active_on_date cal svc2 d = is_active_on_date cal svc1 d := by
  subst h1
  refine ⟨?_, ?_⟩
  · simp [is_active_on_date, mkBusService]
  · simp [is_active_on_date, h2]

/-- Witness for C7 on a concrete calendar and service pair. -/
theorem c7_service_activity_witness :
    (is_active_on_date [((2023, 1, 2), ["20230101-1111100"])]
        (mkBusService "ST.1" "vmh_20230101-1111100") (2023, 1, 2) = true ↔
      stripVmh "vmh_20230101-1111100" ∈
        calendarLookup [((2023, 1, 2), ["20230101-1111100"])] (2023, 1, 2)) ∧
    is_active_on_date [((2023, 1, 2), ["20230101-1111100"])]
        ⟨"other", "20230101-1111100", none, []⟩ (2023, 1, 2) =
      is_active_on_date [((2023, 1, 2), ["20230101-1111100"])]
        (mkBusService "ST.1" "vmh_20230101-1111100") (2023, 1, 2) :=
  c7_service_activity [((2023, 1, 2), ["20230101-1111100"])] (2023, 1, 2)
    "ST.1" "vmh_20230101-1111100" _ ⟨"other", "20230101-1111100", none, []⟩
    rfl (by decide)

/-! ### The live-fleet cache (`Bus`) -/

/-- A live bus snapshot (class `Bus`). Locations are `(lat, lon)` pairs of
rationals; the timestamp is an instant in seconds. -/
structure Bus where
  route_id : String
  stop_id : String
  next_stop_id : String
  location : ℚ × ℚ
  heading : ℚ
  code : Int
  timestamp : ℚ
deriving DecidableEq

/-- An already-tokenized vehicle record of the live feed (per the spec,
raw text/XML parsing is upstream; a missing or too-short attribute is
`none`). -/
structure RawBus where
  time : Option ℚ
  lat : ℚ
  lon : ℚ
  head : ℚ
  route : Option String
  stop : Option String
  next : Option String
  code : Int
deriving DecidableEq

/-- Feed route-code normalization of `Bus._load_state`: `A...` becomes
`AF....`, `R...` becomes `RY....`, and the remaining codes (asserted in the
source to start with a digit) are assumed capital-area `ST.` routes. -/
def normalizeRoute (r : String) : String :=
  if r.toList.take 1 = ['A'] then "AF." ++ (r.toList.drop 1).asString
  else if r.toList.take 1 = ['R'] then "RY." ++ (r.toList.drop 1).asString
  else "ST." ++ r

/-- Per-record handling in `Bus._load_state`: a record with a missing
timestamp, or a falsy route, stop or next-stop attribute, is skipped
without failing the whole refresh. -/
def parseBus (b : RawBus) : Option Bus :=
  match b.time with
  | none => none
  | some ts =>
      match b.route with
      | none => none
      | some r0 =>
          if r0.isEmpty then none
          else
            match b.stop, b.next with
            | some st, some nx =>
                if st.isEmpty || nx.isEmpty then none
                else some
                  { route_id := normalizeRoute r0, stop_id := st,
                    next_stop_id := nx, location := (b.lat, b.lon),
                    heading := b.head, code := b.code, timestamp := ts }
            | _, _ => none

/-- The update `Bus._all_buses[route_id].append(bus)` on the per-route bus map. -/
def busMapAppend (m : List (String × List Bus)) (k : String) (b : Bus) :
    List (String × List Bus) :=
  assocUpdate m k [] (fun l => l ++ [b])

/-- The shared live-fleet cache: `Bus._all_buses` plus
`Bus._info_timestamp`. -/
structure BusState where
  all_buses : List (String × List Bus)
  info_timestamp : Option ℚ
deriving DecidableEq

/-- Method `Bus._load_state`, parametrized by the outcome of the HTTP fetch
(`Bus._fetch_state`) and of the fallback snapshot file (`Bus._read_state`),
where `none` means no data was obtained. The source clears
`Bus._all_buses` first; when neither source yields data it returns with
the cache left empty and the timestamp untouched; on success it fills the
cleared cache from the records and stamps the current instant. -/
def load_state (fetched fallback : Option (List RawBus)) (now : ℚ)
    (st : BusState) : BusState :=
  match fetched.orElse (fun _ => fallback) with
  | none => { all_buses := [], info_timestamp := st.info_timestamp }
  | some root =>
      { all_buses := root.foldl (fun m b =>
          match parseBus b with
          | none => m
          | some bus => busMapAppend m bus.route_id bus) []
        info_timestamp := some now }

/-- Method `Bus.refresh_state`: under the lock, a no-op if the last successful
refresh is younger than the 60-second refresh interval, otherwise a full
reload. -/
def refresh_state (fetched fallback : Option (List RawBus)) (now : ℚ)
    (st : BusState) : BusState :=
  match st.info_timestamp with
  | some t => if now - t < 60 then st else load_state fetched fallback now st
  | none => load_state fetched fallback now st

/-- Method `Bus.buses_on_route` after its internal `refresh_state` call: the
cached per-route list (empty for an unknown route). -/
def buses_on_route (st : BusState) (rid : String) : List Bus :=
  (assocLookup rid st.all_buses).getD []

/-- C9: a refresh while the last successful refresh is younger than 60
seconds is a no-op — the whole state (per-route cache and timestamp) is
returned unchanged whatever the fetch and fallback sources would have
produced, so no network or file access can influence the result and two
queries within the interval observe the same snapshot. -/
theorem c9_fresh_refresh_noop (fetched fallback : Option (List RawBus))
    (now t : ℚ) (st : BusState) (ht : st.info_timestamp = some t)
    (hfresh : now - t < 60) :
    refresh_state fetched fallback now st = st ∧
    ∀ rid, buses_on_route (refresh_state fetched fallback now st) rid =
      buses_on_route st rid := by
  have heq : refresh_state fetched fallback now st = st := by
    unfold refresh_state
    rw [ht]
    simp [hfresh]
  exact ⟨heq, fun rid => by rw [heq]⟩

/-- Witness for C9 on a concrete fresh state. -/
theorem c9_fresh_refresh_noop_witness :
    refresh_state (some []) none 130
        { all_buses := [("ST.1", [])], info_timestamp := some 100 } =
      { all_buses := [("ST.1", [])], info_timestamp := some 100 } ∧
    ∀ rid, buses_on_route (refresh_state (some []) none 130
        { all_buses := [("ST.1", [])], info_timestamp := some 100 }) rid =
      buses_on_route
        { all_buses := [("ST.1", [])], info_timestamp := some 100 } rid :=
  c9_fresh_refresh_noop (some []) none 130 100
    { all_buses := [("ST.1", [])], info_timestamp := some 100 }
    rfl (by norm_num)

/-- A concrete cached bus and a stale cache state, used to exercise the
failure path of the live-fleet refresh. -/
def busEx : Bus :=
  { route_id := "ST.1", stop_id := "90000295", next_stop_id := "90000191",
    location := (64, -21), heading := 0, code := 6, timestamp := 100 }

/-- A stale live-fleet state holding one cached bus on route `ST.1`. -/
def stEx : BusState :=
  { all_buses := [("ST.1", [busEx])], info_timestamp := some 0 }

/-- Counterexample to C1 as stated: with a stale nonempty cache, when both
the network fetch and the snapshot file yield no data, the cache observable
through `buses_on_route` after the refresh is NOT the cache that existed
before the refresh — `_load_state` clears `Bus._all_buses` before
attempting the fetch, so the stale snapshot is discarded, not kept. -/
theorem c1_stale_cache_kept_counterexample :
    buses_on_route (refresh_state none none 1000 stEx) "ST.1" ≠
      buses_on_route stEx "ST.1" := by
  have h1 : refresh_state none none 1000 stEx =
      { all_buses := [], info_timestamp := some 0 } := by
    unfold refresh_state
    show (if (1000 : ℚ) - 0 < 60 then stEx
      else load_state none none 1000 stEx) = _
    rw [if_neg (by norm_num)]
    rfl
  rw [h1]
  simp [buses_on_route, assocLookup, stEx]

/-- C1 amended: when a due refresh finds that both the network fetch and
the snapshot-file fallback fail to yield data, it returns without error,
leaves the last-refresh timestamp unchanged, but leaves the per-route
cache EMPTY (the previous, possibly stale, snapshot is discarded at the
start of the reload), so every route observes an empty bus list. -/
theorem c1_both_sources_fail_amended (st : BusState) (now : ℚ)
    (hdue : match st.info_timestamp with
      | none => True
      | some t => ¬ now - t < 60) :
    refresh_state none none now st =
      { all_buses := [], info_timestamp := st.info_timestamp } ∧
    ∀ rid, buses_on_route (refresh_state none none now st) rid = [] := by
  have h1 : refresh_state none none now st =
      { all_buses := [], info_timestamp := st.info_timestamp } := by
    unfold refresh_state
    cases hts : st.info_timestamp with
    | none =>
        show load_state none none now st = _
        simp [load_state, Option.orElse, hts]
    | some t =>
        rw [hts] at hdue
        show (if now - t < 60 then st else load_state none none now st) = _
        rw [if_neg hdue]
        simp [load_state, Option.orElse, hts]
  refine ⟨h1, fun rid => ?_⟩
  rw [h1]
  simp [buses_on_route, assocLookup]

/-- Witness for the amended C1 on the concrete stale state. -/
theorem c1_both_sources_fail_amended_witness :
    refresh_state none none 1000 stEx =
      { all_buses := [], info_timestamp := stEx.info_timestamp } ∧
    ∀ rid, buses_on_route (refresh_state none none 1000 stEx) rid = [] :=
  c1_both_sources_fail_amended stEx 1000 (by norm_num [stEx])

/-! ### Candidate-trip selection in `BusSchedule.predicted_arrival`

`BusTrip` below is the query-side view of a finalized trip object: its
fields are the derived attributes computed by `BusTrip._add_halt` /
`BusTrip._initialize` (the ingestion itself is modelled above by
`trip_sorted_halts` / `trip_consecutive_stops`). -/

/-- A finalized `BusTrip` as seen by the schedule queries. -/
structure BusTrip where
  trip_id : String
  direction : String
  start_time : Hms
  end_time : Hms
  stops : List String
  sorted_halts : List (Hms × BusHalt)
  consecutive_stops : List (String × String)
  last_stop_name : String
deriving DecidableEq

/-- The inner `gap(trip)` function of `predicted_arrival`: `-1` for a trip
that has not yet started (excluding it), the seconds elapsed since the end
for an already-finished trip, `0` for a trip underway. -/
def gap (after : Hms) (t : BusTrip) : Int :=
  if hmsLt after t.start_time then -1
  else if hmsLt t.end_time after then pyDiff t.end_time after
  else 0

/-- The accumulator of the candidate-selection loop: the pair of dicts
`closest_gap` and `closest_trip`, both keyed by trip direction. -/
abbrev SelAcc := List (String × Int) × List (String × BusTrip)

/-- One iteration of the candidate-selection loop over the trips of the
active services: trips not visiting the queried stop or with a negative
gap are skipped; otherwise the trip replaces the stored one for its
direction when its gap is strictly smaller (or when none is stored). -/
def selStep (after : Hms) (sid : String) (acc : SelAcc) (t : BusTrip) :
    SelAcc :=
  if sid ∈ t.stops then
    let g := gap after t
    if 0 ≤ g then
      match assocLookup t.direction acc.1 with
      | none => (assocSet acc.1 t.direction g, assocSet acc.2 t.direction t)
      | some cg =>
          if g < cg then
            (assocSet acc.1 t.direction g, assocSet acc.2 t.direction t)
          else acc
    else acc
  else acc

/-- The candidate-selection loop of `predicted_arrival` over the listed
trips (the concatenation, in order, of the trips of the route's services
active today). -/
def selectClosest (after : Hms) (sid : String) (trips : List BusTrip) :
    SelAcc :=
  trips.foldl (selStep after sid) ([], [])

/-- Invariant of the candidate-selection loop over the processed prefix. -/
def SelInv (after : Hms) (sid : String) (seen : List BusTrip)
    (acc : SelAcc) : Prop :=
  ∀ d : String,
    (∀ t, assocLookup d acc.2 = some t →
      t ∈ seen ∧ t.direction = d ∧ sid ∈ t.stops ∧ 0 ≤ gap after t ∧
      assocLookup d acc.1 = some (gap after t) ∧
      ∀ t' ∈ seen, t'.direction = d → sid ∈ t'.stops →
        0 ≤ gap after t' → gap after t ≤ gap after t') ∧
    (assocLookup d acc.2 = none →
      assocLookup d acc.1 = none ∧
      ∀ t' ∈ seen, t'.direction = d → sid ∈ t'.stops → ¬ 0 ≤ gap after t')

theorem selStep_inv (after : Hms) (sid : String) (seen : List BusTrip)
    (acc : SelAcc) (x : BusTrip) (h : SelInv after sid seen acc) :
    SelInv after sid (seen ++ [x]) (selStep after sid acc x) := by
  have hmem : ∀ (t' : BusTrip), t' ∈ seen ++ [x] → t' ∈ seen ∨ t' = x := by
    intro t' ht'
    rcases List.mem_append.1 ht' with h' | h'
    · exact Or.inl h'
    · exact Or.inr (List.mem_singleton.1 h')
  by_cases hst : sid ∈ x.stops
  · by_cases hg : 0 ≤ gap after x
    · cases hl : assocLookup x.direction acc.1 with
      | none =>
          have hstep : selStep after sid acc x =
              (assocSet acc.1 x.direction (gap after x),
                assocSet acc.2 x.direction x) := by
            simp [selStep, hst, hg, hl]
          rw [hstep]
          -- the dict for x's direction was empty: x becomes the candidate
          have hl2 : assocLookup x.direction acc.2 = none := by
            cases hl2 : assocLookup x.direction acc.2 with
            | none => rfl
            | some t0 =>
                have := ((h x.direction).1 t0 hl2).2.2.2.2.1
                rw [hl] at this
                exact Option.noConfusion this
          intro d
          by_cases hd : d = x.direction
          · subst hd
            constructor
            · intro t ht
              rw [assocLookup_set_self] at ht
              obtain rfl : x = t := Option.some.inj ht
              refine ⟨List.mem_append.2 (Or.inr (List.mem_singleton.2 rfl)),
                rfl, hst, hg, by rw [assocLookup_set_self], ?_⟩
              intro t' ht' hdir hsid hgap
              rcases hmem t' ht' with h' | h'
              · exact absurd hgap (((h x.direction).2 hl2).2 t' h' hdir hsid)
              · subst h'; exact le_refl _
            · intro ht
              rw [assocLookup_set_self] at ht
              exact Option.noConfusion ht
          · constructor
            · intro t ht
              rw [assocLookup_set_other _ _ _ _ hd] at ht
              obtain ⟨h1, h2, h3, h4, h5, h6⟩ := (h d).1 t ht
              refine ⟨List.mem_append.2 (Or.inl h1), h2, h3, h4,
                by rw [assocLookup_set_other _ _ _ _ hd]; exact h5, ?_⟩
              intro t' ht' hdir hsid hgap
              rcases hmem t' ht' with h' | h'
              · exact h6 t' h' hdir hsid hgap
              · subst h'; exact absurd (hdir.symm) hd
            · intro ht
              rw [assocLookup_set_other _ _ _ _ hd] at ht
              obtain ⟨h1, h2⟩ := (h d).2 ht
              refine ⟨by rw [assocLookup_set_other _ _ _ _ hd]; exact h1, ?_⟩
              intro t' ht' hdir hsid
              rcases hmem t' ht' with h' | h'
              · exact h2 t' h' hdir hsid
              · subst h'; exact absurd (hdir.symm) hd
      | some cg =>
          -- a candidate for x's direction exists already
          have hsome : ∃ t0, assocLookup x.direction acc.2 = some t0 := by
            cases hl2 : assocLookup x.direction acc.2 with
            | none =>
                have := ((h x.direction).2 hl2).1
                rw [hl] at this
                exact Option.noConfusion this
            | some t0 => exact ⟨t0, rfl⟩
          obtain ⟨t0, hl2⟩ := hsome
          obtain ⟨ht0mem, ht0dir, ht0sid, ht0gap, ht0look, ht0min⟩ :=
            (h x.direction).1 t0 hl2
          have hcg : cg = gap after t0 := by
            rw [hl] at ht0look
            exact Option.some.inj ht0look
          by_cases hlt2 : gap after x < cg
          · have hstep : selStep after sid acc x =
                (assocSet acc.1 x.direction (gap after x),
                  assocSet acc.2 x.direction x) := by
              simp [selStep, hst, hg, hl, hlt2]
            rw [hstep]
            intro d
            by_cases hd : d = x.direction
            · subst hd
              constructor
              · intro t ht
                rw [assocLookup_set_self] at ht
                obtain rfl : x = t := Option.some.inj ht
                refine ⟨List.mem_append.2 (Or.inr (List.mem_singleton.2 rfl)),
                  rfl, hst, hg, by rw [assocLookup_set_self], ?_⟩
                intro t' ht' hdir hsid hgap
                rcases hmem t' ht' with h' | h'
                · have := ht0min t' h' hdir hsid hgap
                  rw [hcg] at hlt2
                  omega
                · subst h'; exact le_refl _
              · intro ht
                rw [assocLookup_set_self] at ht
                exact Option.noConfusion ht
            · constructor
              · intro t ht
                rw [assocLookup_set_other _ _ _ _ hd] at ht
                obtain ⟨h1, h2, h3, h4, h5, h6⟩ := (h d).1 t ht
                refine ⟨List.mem_append.2 (Or.inl h1), h2, h3, h4,
                  by rw [assocLookup_set_other _ _ _ _ hd]; exact h5, ?_⟩
                intro t' ht' hdir hsid hgap
                rcases hmem t' ht' with h' | h'
                · exact h6 t' h' hdir hsid hgap
                · subst h'; exact absurd (hdir.symm) hd
              · intro ht
                rw [assocLookup_set_other _ _ _ _ hd] at ht
                obtain ⟨h1, h2⟩ := (h d).2 ht
                refine ⟨by rw [assocLookup_set_other _ _ _ _ hd]; exact h1, ?_⟩
                intro t' ht' hdir hsid
                rcases hmem t' ht' with h' | h'
                · exact h2 t' h' hdir hsid
                · subst h'; exact absurd (hdir.symm) hd
          · have hstep : selStep after sid acc x = acc := by
              simp [selStep, hst, hg, hl, hlt2]
            rw [hstep]
            intro d
            constructor
            · intro t ht
              obtain ⟨h1, h2, h3, h4, h5, h6⟩ := (h d).1 t ht
              refine ⟨List.mem_append.2 (Or.inl h1), h2, h3, h4, h5, ?_⟩
              intro t' ht' hdir hsid hgap
              rcases hmem t' ht' with h' | h'
              · exact h6 t' h' hdir hsid hgap
              · -- t' is x: x is not better than the stored candidate,
                -- and the stored candidate for this direction is t itself
                have hdx : x.direction = d := by rw [← h']; exact hdir
                rw [← hdx] at ht
                rw [ht] at hl2
                have htt0 : t = t0 := Option.some.inj hl2
                rw [h', htt0]
                rw [hcg] at hlt2
                omega
            · intro ht
              obtain ⟨h1, h2⟩ := (h d).2 ht
              refine ⟨h1, ?_⟩
              intro t' ht' hdir hsid
              rcases hmem t' ht' with h' | h'
              · exact h2 t' h' hdir hsid
              · have hdx : x.direction = d := by rw [← h']; exact hdir
                rw [← hdx] at ht
                rw [ht] at hl2
                exact Option.noConfusion hl2
    · have hstep : selStep after sid acc x = acc := by
        simp [selStep, hst, hg]
      rw [hstep]
      intro d
      constructor
      · intro t ht
        obtain ⟨h1, h2, h3, h4, h5, h6⟩ := (h d).1 t ht
        refine ⟨List.mem_append.2 (Or.inl h1), h2, h3, h4, h5, ?_⟩
        intro t' ht' hdir hsid hgap
        rcases hmem t' ht' with h' | h'
        · exact h6 t' h' hdir hsid hgap
        · subst h'; exact absurd hgap hg
      · intro ht
        obtain ⟨h1, h2⟩ := (h d).2 ht
        refine ⟨h1, ?_⟩
        intro t' ht' hdir hsid
        rcases hmem t' ht' with h' | h'
        · exact h2 t' h' hdir hsid
        · subst h'; exact hg
  · have hstep : selStep after sid acc x = acc := by
      simp [selStep, hst]
    rw [hstep]
    intro d
    constructor
    · intro t ht
      obtain ⟨h1, h2, h3, h4, h5, h6⟩ := (h d).1 t ht
      refine ⟨List.mem_append.2 (Or.inl h1), h2, h3, h4, h5, ?_⟩
      intro t' ht' hdir hsid hgap
      rcases hmem t' ht' with h' | h'
      · exact h6 t' h' hdir hsid hgap
      · subst h'; exact absurd hsid hst
    · intro ht
      obtain ⟨h1, h2⟩ := (h d).2 ht
      refine ⟨h1, ?_⟩
      intro t' ht' hdir hsid
      rcases hmem t' ht' with h' | h'
      · exact h2 t' h' hdir hsid
      · subst h'; exact absurd hsid hst

theorem selectClosest_inv (after : Hms) (sid : String) (trips : List BusTrip) :
    SelInv after sid trips (selectClosest after sid trips) := by
  have hbase : SelInv after sid [] ([], []) := by
    intro d
    constructor
    · intro t ht
      exact Option.noConfusion ht
    · intro _
      exact ⟨rfl, by intro t' ht'; exact absurd ht' (List.not_mem_nil t')⟩
  have hfold : ∀ (l seen : List BusTrip) (acc : SelAcc),
      SelInv after sid seen acc →
      SelInv after sid (seen ++ l) (l.foldl (selStep after sid) acc) := by
    intro l
    induction l with
    | nil =>
        intro seen acc h
        rw [List.append_nil]
        exact h
    | cons x l ih =>
        intro seen acc h
        have h2 := ih (seen ++ [x]) (selStep after sid acc x)
          (selStep_inv after sid seen acc x h)
        rw [List.append_assoc] at h2
        exact h2
  have := hfold trips [] ([], []) hbase
  rw [List.nil_append] at this
  exact this

/-- C4: in the candidate-trip selection of `predicted_arrival`, over any
list of trips of the route's active services (with well-formed times, and
a query instant taken from the clock, so below 24 hours): (1) the gap of a
not-yet-started trip is `-1` (it is excluded); the gap of a trip already
finished equals the seconds elapsed since its end time (a positive value,
so the trip stays eligible); the gap of a trip underway is `0`; (2) any
trip retained for a direction is an eligible trip of that direction that
visits the queried stop, is never one whose start time is after the query
instant, and its gap is minimal among the eligible trips of the direction;
(3) whenever some eligible trip for a direction exists, a trip is retained
for that direction (so exactly one candidate per inhabited direction); and
(4) if every trip visiting the queried stop has a start time after the
query instant, nothing at all is selected — the candidate dict stays
empty, which is the case in which `predicted_arrival` returns no
prediction by its first guard. -/
theorem c4_closest_candidate_trip (after : Hms) (sid : String)
    (trips : List BusTrip)
    (hv : ∀ t ∈ trips, validHms t.start_time ∧ validHms t.end_time)
    (ha : validHms after ∧ after.h < 24) :
    (∀ t ∈ trips,
      (hmsLt after t.start_time = true → gap after t = -1) ∧
      (hmsLt after t.start_time = false → hmsLt t.end_time after = true →
        gap after t = pyDiff t.end_time after ∧ 0 < gap after t ∧
        gap after t = (secOfHms after : Int) - (secOfHms t.end_time : Int)) ∧
      (hmsLt after t.start_time = false → hmsLt t.end_time after = false →
        gap after t = 0)) ∧
    (∀ d t, assocLookup d (selectClosest after sid trips).2 = some t →
      t ∈ trips ∧ t.direction = d ∧ sid ∈ t.stops ∧ 0 ≤ gap after t ∧
      hmsLt after t.start_time = false ∧
      ∀ t' ∈ trips, t'.direction = d → sid ∈ t'.stops →
        0 ≤ gap after t' → gap after t ≤ gap after t') ∧
    (∀ d, (∃ t ∈ trips, t.direction = d ∧ sid ∈ t.stops ∧ 0 ≤ gap after t) →
      ∃ t, assocLookup d (selectClosest after sid trips).2 = some t) ∧
    ((∀ t ∈ trips, sid ∈ t.stops → hmsLt after t.start_time = true) →
      (selectClosest after sid trips).2 = []) := by
  have hinv := selectClosest_inv after sid trips
  refine ⟨?_, ?_, ?_, ?_⟩
  · intro t ht
    refine ⟨?_, ?_, ?_⟩
    · intro hstart
      simp [gap, hstart]
    · intro hstart hend
      have hgap : gap after t = pyDiff t.end_time after := by
        simp [gap, hstart, hend]
      have hlex : t.end_time.h < after.h ∨ (t.end_time.h = after.h ∧
          (t.end_time.m < after.m ∨ (t.end_time.m = after.m ∧
            t.end_time.s < after.s))) := of_decide_eq_true hend
      obtain ⟨⟨ham, has⟩, hah⟩ := ha
      obtain ⟨hem, hes⟩ := (hv t ht).2
      have hpos : 0 < pyDiff t.end_time after := by
        rw [pyDiff, pySec_eq, pySec_eq]
        unfold secOfHms
        push_cast
        omega
      refine ⟨hgap, by rw [hgap]; exact hpos, ?_⟩
      rw [hgap, pyDiff, pySec_eq, pySec_eq]
    · intro hstart hend
      simp [gap, hstart, hend]
  · intro d t ht
    obtain ⟨h1, h2, h3, h4, _, h6⟩ := (hinv d).1 t ht
    refine ⟨h1, h2, h3, h4, ?_, h6⟩
    cases hstart : hmsLt after t.start_time with
    | false => rfl
    | true =>
        have : gap after t = -1 := by simp [gap, hstart]
        rw [this] at h4
        omega
  · intro d hex
    obtain ⟨t', ht'mem, ht'dir, ht'sid, ht'gap⟩ := hex
    cases hlook : assocLookup d (selectClosest after sid trips).2 with
    | some t => exact ⟨t, rfl⟩
    | none =>
        have := ((hinv d).2 hlook).2 t' ht'mem ht'dir ht'sid
        exact absurd ht'gap this
  · intro hall
    cases hsel : (selectClosest after sid trips).2 with
    | nil => rfl
    | cons p rest =>
        exfalso
        obtain ⟨k, v⟩ := p
        have hlook : assocLookup k (selectClosest after sid trips).2 = some v := by
          rw [hsel]
          simp [assocLookup]
        obtain ⟨hmem, _, hsid, hgap, _, _⟩ := (hinv k).1 v hlook
        have hneg : gap after v = -1 := by simp [gap, hall v hmem hsid]
        rw [hneg] at hgap
        omega

/-- A concrete finalized trip: stops A, B, C at 07:58:00, 08:00:00,
08:00:10 (sequence numbers 1, 2, 3), direction "0", terminus name "C". -/
def haltA : BusHalt := ⟨"T1", "A", 1, ⟨7, 58, 0⟩⟩

/-- The second halt of the concrete trip. -/
def haltB : BusHalt := ⟨"T1", "B", 2, ⟨8, 0, 0⟩⟩

/-- The third halt of the concrete trip. -/
def haltC : BusHalt := ⟨"T1", "C", 3, ⟨8, 0, 10⟩⟩

/-- The finalized view of the concrete trip. -/
def tripEx : BusTrip :=
  { trip_id := "T1", direction := "0", start_time := ⟨7, 58, 0⟩,
    end_time := ⟨8, 0, 10⟩, stops := ["A", "B", "C"],
    sorted_halts := [(⟨7, 58, 0⟩, haltA), (⟨8, 0, 0⟩, haltB),
      (⟨8, 0, 10⟩, haltC)],
    consecutive_stops := [("A", "B"), ("B", "C")],
    last_stop_name := "C" }

/-- Witness for C4 on the concrete trip at query instant 08:00:30. -/
theorem c4_closest_candidate_trip_witness :
    ∃ t, assocLookup "0"
      (selectClosest ⟨8, 0, 30⟩ "C" [tripEx]).2 = some t :=
  (c4_closest_candidate_trip ⟨8, 0, 30⟩ "C" [tripEx]
      (by decide) (by decide)).2.2.1 "0"
    ⟨tripEx, by decide, rfl, by decide, by decide⟩

/-! ### The daily schedule and `BusSchedule.arrivals` -/

/-- The non-strict tuple order as a relation, used for Python's
`sorted(arrival_times)`. -/
def hmsLeP (a b : Hms) : Prop := hmsLe a b = true

instance : DecidableRel hmsLeP := fun a b => instDecidableEqBool (hmsLe a b) true

instance : IsTotal Hms hmsLeP :=
  ⟨fun a b => by
    unfold hmsLeP hmsLe
    simp only [decide_eq_true_eq]
    omega⟩

instance : IsTrans Hms hmsLeP :=
  ⟨fun a b c h1 h2 => by
    unfold hmsLeP hmsLe at h1 h2 ⊢
    simp only [decide_eq_true_eq] at h1 h2 ⊢
    omega⟩

/-- The nested schedule `BusSchedule._sched`: route id → direction key (the
trip's terminus name) → stop name → list of arrival times. -/
abbrev DirSched := List (String × List (String × List Hms))

/-- The top level of the nested schedule, keyed by route id. -/
abbrev Sched := List (String × DirSched)

/-- Reading `self._sched[route_id]` (a `defaultdict`: an absent route reads
as empty). -/
def schedLookup (sched : Sched) (rid : String) : DirSched :=
  (assocLookup rid sched).getD []

/-- The update `s[route_id][direction][stop_name].append(hms)` on the nested
`defaultdict` of `BusSchedule.__init__`. -/
def schedAppend (s : Sched) (rid dir stopName : String) (hms : Hms) : Sched :=
  assocUpdate s rid [] (fun ds =>
    assocUpdate ds dir [] (fun hs =>
      assocUpdate hs stopName [] (fun ts => ts ++ [hms])))

/-- A route with the trips of its services active on the schedule date
(the flattening, in iteration order, of
`route.active_services(for_date)` and `service.trips`). -/
structure SRoute where
  route_id : String
  trips : List BusTrip

/-- Constructor `BusSchedule.__init__`: every halt of every active trip contributes its
arrival time under the route id, the trip's terminus name (the direction
key) and the halt's stop display name; halts whose stop id resolves to no
known stop are skipped. `stopsNames` is the stop table projected to
display names (`halt.stop.name`). -/
def mkSchedule (stopsNames : List (String × String))
    (routes : List SRoute) : Sched :=
  routes.foldl (fun s r =>
    r.trips.foldl (fun s t =>
      t.sorted_halts.foldl (fun s p =>
        match assocLookup p.2.stop_id stopsNames with
        | none => s
        | some nm => schedAppend s r.route_id t.last_stop_name nm p.1) s) s) []

/-- One step of the inner loop of `BusSchedule.arrivals` over the
`(stop name, times)` pairs of one direction: a pair for the queried stop
marks the route as arriving; unless the queried stop is the direction key
itself, the times not before `after` are appended to the direction's
list (when any survive). -/
def arrStep (after : Hms) (stopName dir : String)
    (acc : List (String × List Hms) × Bool) (sp : String × List Hms) :
    List (String × List Hms) × Bool :=
  if sp.1 = stopName then
    if sp.1 ≠ dir then
      if (sp.2.filter (fun hms => hmsLe after hms)).isEmpty then (acc.1, true)
      else (assocUpdate acc.1 dir []
        (fun ts => ts ++ sp.2.filter (fun hms => hmsLe after hms)), true)
    else (acc.1, true)
  else acc

/-- Method `BusSchedule.arrivals`, parametrized by the resolved route id
(`BusRoute.make_id` applied to the bare route number, `none` when the
number matches no route): the per-direction lists of surviving arrival
times, each sorted and truncated to the first `n`, plus the
visits-today flag. -/
def arrivals (sched : Sched) (rid? : Option String) (stopName : String)
    (n : Nat) (after : Hms) : List (String × List Hms) × Bool :=
  match rid? with
  | none => ([], false)
  | some rid =>
      let s := schedLookup sched rid
      let hb := s.foldl (fun acc dp =>
        dp.2.foldl (arrStep after stopName dp.1) acc) ([], false)
      (hb.1.map (fun p => (p.1, (List.insertionSort hmsLeP p.2).take n)), hb.2)

theorem foldl_preserve {α σ : Type} (P : σ → Prop) (f : σ → α → σ)
    (hf : ∀ s a, P s → P (f s a)) :
    ∀ (l : List α) (s : σ), P s → P (l.foldl f s) := by
  intro l
  induction l with
  | nil => intro s h; exact h
  | cons x l ih => intro s h; exact ih _ (hf s x h)

theorem foldl_reach {α σ : Type} (P : σ → Prop) (f : σ → α → σ)
    (hpres : ∀ s a, P s → P (f s a)) :
    ∀ (l : List α) (e : α), e ∈ l → (∀ s, P (f s e)) →
      ∀ s, P (l.foldl f s) := by
  intro l
  induction l with
  | nil => intro e he; exact absurd he (List.not_mem_nil e)
  | cons x l ih =>
      intro e he hset s
      rcases List.mem_cons.1 he with h | h
      · subst h
        exact foldl_preserve P f hpres l _ (hset s)
      · exact ih e h hset (f s x)

theorem assocLookup_update_other {β : Type} (l : List (String × β))
    (k k' : String) (dflt : β) (f : β → β) (hne : k' ≠ k) :
    assocLookup k' (assocUpdate l k dflt f) = assocLookup k' l := by
  have hne' : ¬ k = k' := fun h => hne h.symm
  induction l with
  | nil => simp [assocUpdate, assocLookup, hne']
  | cons p rest ih =>
      obtain ⟨k0, v0⟩ := p
      by_cases hk : k0 = k
      · subst hk
        simp [assocUpdate, assocLookup, hne']
      · simp [assocUpdate, assocLookup, hk, ih]

theorem assocUpdate_forall {β : Type} (C : β → Prop) (l : List (String × β))
    (k : String) (dflt : β) (f : β → β) (hl : ∀ p ∈ l, C p.2)
    (hf : ∀ v, C v → C (f v)) (hd : C (f dflt)) :
    ∀ p ∈ assocUpdate l k dflt f, C p.2 := by
  induction l with
  | nil =>
      intro p hp
      simp only [assocUpdate, List.mem_singleton] at hp
      rw [hp]
      exact hd
  | cons q rest ih =>
      obtain ⟨k0, v0⟩ := q
      intro p hp
      by_cases hk : k0 = k
      · simp only [assocUpdate, hk, if_pos rfl] at hp
        rcases List.mem_cons.1 hp with h | h
        · rw [h]
          exact hf v0 (hl (k0, v0) (List.mem_cons_self _ _))
        · exact hl p (List.mem_cons_of_mem _ h)
      · simp only [assocUpdate, if_neg hk] at hp
        rcases List.mem_cons.1 hp with h | h
        · rw [h]
          exact hl (k0, v0) (List.mem_cons_self _ _)
        · exact ih (fun q hq => hl q (List.mem_cons_of_mem _ hq)) p h

theorem assocLookup_map_none {β γ : Type} (g : β → γ)
    (l : List (String × β)) (k : String) (h : assocLookup k l = none) :
    assocLookup k (l.map (fun p => (p.1, g p.2))) = none := by
  induction l with
  | nil => rfl
  | cons p rest ih =>
      obtain ⟨k0, v0⟩ := p
      by_cases hk : k0 = k
      · rw [assocLookup, if_pos hk] at h
        exact Option.noConfusion h
      · rw [assocLookup, if_neg hk] at h
        simp only [List.map_cons]
        rw [assocLookup, if_neg hk]
        exact ih h

/-- The invariant property of the arrivals accumulator: every stored time
passed the `>= after` filter. -/
def ArrAfterInv (after : Hms) (a : List (String × List Hms) × Bool) : Prop :=
  ∀ q ∈ a.1, ∀ t ∈ q.2, hmsLe after t = true

theorem arrStep_after_inv (after : Hms) (stopName dir : String)
    (s : List (String × List Hms) × Bool) (sp : String × List Hms)
    (hs : ArrAfterInv after s) :
    ArrAfterInv after (arrStep after stopName dir s sp) := by
  unfold arrStep
  split_ifs with h1 h2 h3
  · exact hs
  · intro q hq
    refine assocUpdate_forall (fun v => ∀ t ∈ v, hmsLe after t = true)
      s.1 dir [] _ hs ?_ ?_ q hq
    · intro v hv t ht
      rcases List.mem_append.1 ht with h | h
      · exact hv t h
      · exact (List.mem_filter.1 h).2
    · intro t ht
      rcases List.mem_append.1 ht with h | h
      · exact absurd h (List.not_mem_nil t)
      · exact (List.mem_filter.1 h).2
  · exact hs
  · exact hs

/-- C3 (amended): for every call to `arrivals` and every direction of the
returned mapping, the returned list contains no time before `after`,
contains at most `n` entries, and is sorted in non-decreasing order.
(Strict ascent does not hold in general: two trips of the same direction
can put the same arrival time in the list, see the counterexample.) -/
theorem c3_arrivals_bounds (sched : Sched) (rid? : Option String)
    (stopName : String) (n : Nat) (after : Hms) (d : String) (ts : List Hms)
    (hmem : (d, ts) ∈ (arrivals sched rid? stopName n after).1) :
    (∀ t ∈ ts, hmsLe after t = true) ∧ ts.length ≤ n ∧
      ts.Pairwise hmsLeP := by
  cases rid? with
  | none => exact absurd hmem (List.not_mem_nil _)
  | some rid =>
      have hmem' : (d, ts) ∈ ((schedLookup sched rid).foldl
          (fun acc dp => dp.2.foldl (arrStep after stopName dp.1) acc)
          ([], false)).1.map
          (fun p => (p.1, (List.insertionSort hmsLeP p.2).take n)) := hmem
      obtain ⟨p, hp, heq⟩ := List.mem_map.1 hmem'
      have hts : ts = (List.insertionSort hmsLeP p.2).take n :=
        (congrArg Prod.snd heq).symm
      have hbase : ArrAfterInv after
          (([], false) : List (String × List Hms) × Bool) := by
        intro q hq
        exact absurd hq (List.not_mem_nil q)
      have hinv := foldl_preserve (ArrAfterInv after)
        (fun acc dp => dp.2.foldl (arrStep after stopName dp.1) acc)
        (fun s dp hs => foldl_preserve (ArrAfterInv after)
          (arrStep after stopName dp.1)
          (fun s' sp hs' => arrStep_after_inv after stopName dp.1 s' sp hs')
          dp.2 s hs)
        (schedLookup sched rid) ([], false) hbase
      refine ⟨?_, ?_, ?_⟩
      · intro t ht
        rw [hts] at ht
        have ht2 : t ∈ List.insertionSort hmsLeP p.2 :=
          List.mem_of_mem_take ht
        exact hinv p hp t ((List.mem_insertionSort hmsLeP).1 ht2)
      · rw [hts]
        exact List.length_take_le n _
      · rw [hts]
        exact List.Pairwise.sublist (List.take_sublist n _)
          (List.sorted_insertionSort hmsLeP p.2)

/-- First trip used to build a schedule with a duplicated arrival time:
stops A, B, C at 08:00:00, 08:10:00, 08:20:00, terminus C. -/
def tripC3a : BusTrip :=
  { trip_id := "T3a", direction := "0", start_time := ⟨8, 0, 0⟩,
    end_time := ⟨8, 20, 0⟩, stops := ["A", "B", "C"],
    sorted_halts := [(⟨8, 0, 0⟩, ⟨"T3a", "A", 1, ⟨8, 0, 0⟩⟩),
      (⟨8, 10, 0⟩, ⟨"T3a", "B", 2, ⟨8, 10, 0⟩⟩),
      (⟨8, 20, 0⟩, ⟨"T3a", "C", 3, ⟨8, 20, 0⟩⟩)],
    consecutive_stops := [("A", "B"), ("B", "C")],
    last_stop_name := "C" }

/-- Second trip of the same route and direction, reaching stop B at the
same clock time 08:10:00 as the first. -/
def tripC3b : BusTrip :=
  { trip_id := "T3b", direction := "0", start_time := ⟨8, 5, 0⟩,
    end_time := ⟨8, 25, 0⟩, stops := ["A", "B", "C"],
    sorted_halts := [(⟨8, 5, 0⟩, ⟨"T3b", "A", 1, ⟨8, 5, 0⟩⟩),
      (⟨8, 10, 0⟩, ⟨"T3b", "B", 2, ⟨8, 10, 0⟩⟩),
      (⟨8, 25, 0⟩, ⟨"T3b", "C", 3, ⟨8, 25, 0⟩⟩)],
    consecutive_stops := [("A", "B"), ("B", "C")],
    last_stop_name := "C" }

/-- The schedule built by `BusSchedule.__init__` from the two trips above
on route ST.3. -/
def schedC3 : Sched :=
  mkSchedule [("A", "A"), ("B", "B"), ("C", "C")]
    [⟨"ST.3", [tripC3a, tripC3b]⟩]

/-- Counterexample to C3 as stated: with two same-direction trips reaching
stop B at the same scheduled time, `arrivals` returns the duplicated time
twice, so the per-direction list is sorted but NOT strictly ascending. -/
theorem c3_strictly_ascending_counterexample :
    (arrivals schedC3 (some "ST.3") "B" 2 ⟨8, 0, 0⟩).1 =
      [("C", [⟨8, 10, 0⟩, ⟨8, 10, 0⟩])] ∧
    ¬ ([(⟨8, 10, 0⟩ : Hms), ⟨8, 10, 0⟩].Pairwise
        (fun a b => hmsLt a b = true)) := by
  refine ⟨by decide, by decide⟩

/-- Witness for the amended C3 on the concrete duplicated-time schedule. -/
theorem c3_arrivals_bounds_witness :
    (∀ t ∈ [(⟨8, 10, 0⟩ : Hms), ⟨8, 10, 0⟩], hmsLe ⟨8, 0, 0⟩ t = true) ∧
    [(⟨8, 10, 0⟩ : Hms), ⟨8, 10, 0⟩].length ≤ 2 ∧
    [(⟨8, 10, 0⟩ : Hms), ⟨8, 10, 0⟩].Pairwise hmsLeP :=
  c3_arrivals_bounds schedC3 (some "ST.3") "B" 2 ⟨8, 0, 0⟩ "C"
    [⟨8, 10, 0⟩, ⟨8, 10, 0⟩] (by decide)

theorem arrStep_snd_true (after : Hms) (stopName dir : String)
    (s : List (String × List Hms) × Bool) (sp : String × List Hms)
    (hs : s.2 = true) : (arrStep after stopName dir s sp).2 = true := by
  unfold arrStep
  split_ifs with h1 h2 h3
  · rfl
  · rfl
  · rfl
  · exact hs

theorem arrStep_lookup_none (after : Hms) (stopName dir : String)
    (s : List (String × List Hms) × Bool) (sp : String × List Hms)
    (hs : assocLookup stopName s.1 = none) :
    assocLookup stopName (arrStep after stopName dir s sp).1 = none := by
  unfold arrStep
  split_ifs with h1 h2 h3
  · exact hs
  · have hne : stopName ≠ dir := by rw [← h1]; exact h2
    show assocLookup stopName (assocUpdate s.1 dir [] _) = none
    rw [assocLookup_update_other _ _ _ _ _ hne]
    exact hs
  · exact hs
  · exact hs

/-- C10: when the queried stop's display name equals a direction key of
the schedule (the trip's terminus name), the halts of that direction at
the queried stop set the visits-today flag to true, yet no entry for that
direction key appears in the returned mapping — the final-stop halt times
are excluded from the per-direction lists. -/
theorem c10_terminus_excluded_but_counts (sched : Sched)
    (rid stopName : String) (n : Nat) (after : Hms)
    (halts : List (String × List Hms)) (times : List Hms)
    (hdir : (stopName, halts) ∈ schedLookup sched rid)
    (hstop : (stopName, times) ∈ halts) :
    (arrivals sched (some rid) stopName n after).2 = true ∧
    assocLookup stopName
      (arrivals sched (some rid) stopName n after).1 = none := by
  constructor
  · show ((schedLookup sched rid).foldl
        (fun acc dp => dp.2.foldl (arrStep after stopName dp.1) acc)
        ([], false)).2 = true
    refine foldl_reach (fun a => a.2 = true)
      (fun acc dp => dp.2.foldl (arrStep after stopName dp.1) acc)
      (fun s dp hs => foldl_preserve (fun a => a.2 = true)
        (arrStep after stopName dp.1)
        (fun s' sp hs' => arrStep_snd_true after stopName dp.1 s' sp hs')
        dp.2 s hs)
      (schedLookup sched rid) (stopName, halts) hdir ?_ ([], false)
    intro s
    refine foldl_reach (fun a => a.2 = true)
      (arrStep after stopName stopName)
      (fun s' sp hs' => arrStep_snd_true after stopName stopName s' sp hs')
      halts (stopName, times) hstop ?_ s
    intro s'
    unfold arrStep
    split_ifs with h1 h2 h3
    · rfl
    · rfl
    · rfl
    · exact absurd rfl h1
  · have hfold : assocLookup stopName ((schedLookup sched rid).foldl
        (fun acc dp => dp.2.foldl (arrStep after stopName dp.1) acc)
        ([], false)).1 = none := by
      exact foldl_preserve
        (fun (a : List (String × List Hms) × Bool) =>
          assocLookup stopName a.1 = none)
        (fun acc dp => dp.2.foldl (arrStep after stopName dp.1) acc)
        (fun s dp hs => foldl_preserve
          (fun (a : List (String × List Hms) × Bool) =>
            assocLookup stopName a.1 = none)
          (arrStep after stopName dp.1)
          (fun s' sp hs' => arrStep_lookup_none after stopName dp.1 s' sp hs')
          dp.2 s hs)
        (schedLookup sched rid) ([], false) rfl
    exact assocLookup_map_none
      (fun v => (List.insertionSort hmsLeP v).take n) _ stopName hfold

/-- A concrete schedule in which the queried stop C is the terminus of its
direction. -/
def schedC10 : Sched :=
  [("ST.3", [("C", [("C", [⟨8, 20, 0⟩]), ("B", [⟨8, 10, 0⟩])])])]

/-- Witness for C10 on the concrete terminus schedule. -/
theorem c10_terminus_excluded_but_counts_witness :
    (arrivals schedC10 (some "ST.3") "C" 2 ⟨8, 0, 0⟩).2 = true ∧
    assocLookup "C" (arrivals schedC10 (some "ST.3") "C" 2 ⟨8, 0, 0⟩).1 =
      none :=
  c10_terminus_excluded_but_counts schedC10 "ST.3" "C" 2 ⟨8, 0, 0⟩
    [("C", [⟨8, 20, 0⟩]), ("B", [⟨8, 10, 0⟩])] [⟨8, 20, 0⟩]
    (by decide) (by decide)

/-! ### `BusStop.closest_to_list` (C6)

The Haversine distance enters only through the value
`distance(location, stop.location)` computed per stop, so the distance
function is an explicit parameter `dist`. Python's `sorted(..., key=t[0])`
is a stable sort on the first component, modelled by `insertionSort` on
the non-strict first-component order. -/

/-- A bus stop as needed by the proximity query. -/
structure BStop where
  stop_id : String
  location : ℚ × ℚ
deriving DecidableEq

/-- The sort key order of `closest_to_list`: first components
(distances) compared non-strictly. -/
def pairLe (a b : ℚ × BStop) : Prop := a.1 ≤ b.1

instance : DecidableRel pairLe :=
  fun a b => inferInstanceAs (Decidable (a.1 ≤ b.1))

instance : IsTotal (ℚ × BStop) pairLe := ⟨fun a b => le_total a.1 b.1⟩

instance : IsTrans (ℚ × BStop) pairLe := ⟨fun _ _ _ h1 h2 => le_trans h1 h2⟩

/-- Sorting, truncating and projecting the `(distance, stop)` list, after
the emptiness check of the source. -/
def closestFrom (dl : List (ℚ × BStop)) (n : Nat) : List BStop :=
  if dl.isEmpty then []
  else ((List.insertionSort pairLe dl).take n).map Prod.snd

/-- Method `BusStop.closest_to_list(location, n, within_radius)`: build the
`(distance, stop)` list over all stops, keep only the pairs within the
radius when one is given, return nothing when no pair is left, otherwise
sort by increasing distance and return the first `n` stops. -/
def closest_to_list (allStops : List BStop) (dist : (ℚ × ℚ) → (ℚ × ℚ) → ℚ)
    (location : ℚ × ℚ) (n : Nat) (within_radius : Option ℚ) : List BStop :=
  if n < 1 then []
  else
    closestFrom
      (match within_radius with
        | some r =>
            (allStops.map (fun s => (dist location s.location, s))).filter
              (fun q => decide (q.1 ≤ r))
        | none => allStops.map (fun s => (dist location s.location, s)))
      n

theorem orderedInsert_append_of_le {α : Type} (r : α → α → Prop)
    [DecidableRel r] (x : α) (A B : List α) (hB : ∀ b ∈ B, r x b) :
    List.orderedInsert r x (A ++ B) = List.orderedInsert r x A ++ B := by
  induction A with
  | nil =>
      cases B with
      | nil => rfl
      | cons b B' =>
          simp only [List.nil_append, List.orderedInsert]
          rw [if_pos (hB b (List.mem_cons_self _ _))]
          rfl
  | cons a A' ih =>
      simp only [List.cons_append, List.orderedInsert, List.append_eq]
      by_cases h : r x a
      · rw [if_pos h, if_pos h]
        rfl
      · rw [if_neg h, if_neg h, ih]
        rfl

theorem orderedInsert_append_of_not {α : Type} (r : α → α → Prop)
    [DecidableRel r] (x : α) (A B : List α) (hA : ∀ a ∈ A, ¬ r x a) :
    List.orderedInsert r x (A ++ B) = A ++ List.orderedInsert r x B := by
  induction A with
  | nil => rfl
  | cons a A' ih =>
      simp only [List.cons_append, List.orderedInsert, List.append_eq]
      rw [if_neg (hA a (List.mem_cons_self _ _))]
      rw [ih (fun a' ha' => hA a' (List.mem_cons_of_mem _ ha'))]

/-- A stable sort splits around a downward-closed predicate whose
elements are strictly below the rest: sorting equals the sorted kept part
followed by the sorted dropped part. -/
theorem insertionSort_filter_split {α : Type} (r : α → α → Prop)
    [DecidableRel r] (p : α → Bool) (l : List α)
    (hcross : ∀ x ∈ l, ∀ y ∈ l, p x = true → p y = false →
      r x y ∧ ¬ r y x) :
    List.insertionSort r l =
      List.insertionSort r (l.filter p) ++
        List.insertionSort r (l.filter (fun a => ! p a)) := by
  induction l with
  | nil => rfl
  | cons x l' ih =>
      have hcross' : ∀ a ∈ l', ∀ b ∈ l', p a = true → p b = false →
          r a b ∧ ¬ r b a := fun a ha b hb =>
        hcross a (List.mem_cons_of_mem _ ha) b (List.mem_cons_of_mem _ hb)
      cases hp : p x with
      | true =>
          have hfp : (x :: l').filter p = x :: l'.filter p := by
            simp [List.filter_cons, hp]
          have hfn : (x :: l').filter (fun a => ! p a) =
              l'.filter (fun a => ! p a) := by
            simp [List.filter_cons, hp]
          rw [hfp, hfn]
          show List.orderedInsert r x (List.insertionSort r l') = _
          rw [ih hcross']
          rw [orderedInsert_append_of_le r x _ _ ?_]
          · rfl
          · intro b hb
            have hb' : b ∈ l'.filter (fun a => ! p a) :=
              (List.mem_insertionSort r).1 hb
            obtain ⟨hbmem, hbp⟩ := List.mem_filter.1 hb'
            have hbp' : p b = false := by
              cases hq : p b
              · rfl
              · rw [hq] at hbp; exact absurd hbp (by simp)
            exact (hcross x (List.mem_cons_self _ _) b
              (List.mem_cons_of_mem _ hbmem) hp hbp').1
      | false =>
          have hfp : (x :: l').filter p = l'.filter p := by
            simp [List.filter_cons, hp]
          have hfn : (x :: l').filter (fun a => ! p a) =
              x :: l'.filter (fun a => ! p a) := by
            simp [List.filter_cons, hp]
          rw [hfp, hfn]
          show List.orderedInsert r x (List.insertionSort r l') = _
          rw [ih hcross']
          rw [orderedInsert_append_of_not r x _ _ ?_]
          · rfl
          · intro a ha
            have ha' : a ∈ l'.filter p := (List.mem_insertionSort r).1 ha
            obtain ⟨hamem, hap⟩ := List.mem_filter.1 ha'
            exact (hcross a (List.mem_cons_of_mem _ hamem) x
              (List.mem_cons_self _ _) hap hp).2

theorem closestFrom_sorted (key : BStop → ℚ) (dl : List (ℚ × BStop))
    (n : Nat) (hkey : ∀ q ∈ dl, q.1 = key q.2) :
    (closestFrom dl n).Pairwise (fun s1 s2 => key s1 ≤ key s2) := by
  unfold closestFrom
  split_ifs with h
  · exact List.Pairwise.nil
  · refine List.pairwise_map.2 ?_
    have hsorted : (List.insertionSort pairLe dl).Pairwise pairLe :=
      List.sorted_insertionSort pairLe dl
    have htake := List.Pairwise.sublist (List.take_sublist n _) hsorted
    refine htake.imp_of_mem ?_
    intro a b ha hb hab
    have ha' : a ∈ dl := (List.mem_insertionSort pairLe).1
      (List.mem_of_mem_take ha)
    have hb' : b ∈ dl := (List.mem_insertionSort pairLe).1
      (List.mem_of_mem_take hb)
    show key a.2 ≤ key b.2
    rw [← hkey a ha', ← hkey b hb']
    exact hab

theorem closestFrom_mem (dl : List (ℚ × BStop)) (n : Nat) (s : BStop)
    (hs : s ∈ closestFrom dl n) : ∃ q ∈ dl, q.2 = s := by
  unfold closestFrom at hs
  split_ifs at hs with h
  · exact absurd hs (List.not_mem_nil s)
  · obtain ⟨q, hq, hq2⟩ := List.mem_map.1 hs
    exact ⟨q, (List.mem_insertionSort pairLe).1 (List.mem_of_mem_take hq), hq2⟩

theorem closestFrom_filter_subset (dl : List (ℚ × BStop)) (n : Nat) (rad : ℚ) :
    ∀ s ∈ closestFrom (dl.filter (fun q => decide (q.1 ≤ rad))) n,
      s ∈ closestFrom dl n := by
  intro s hs
  unfold closestFrom at hs ⊢
  split_ifs at hs with hemp
  · exact absurd hs (List.not_mem_nil s)
  · have hdlne : ¬ dl.isEmpty = true := by
      intro habs
      rw [List.isEmpty_iff.1 habs] at hemp
      exact hemp rfl
    rw [if_neg hdlne]
    have hsplit := insertionSort_filter_split pairLe
      (fun q => decide (q.1 ≤ rad)) dl ?_
    · rw [hsplit, List.take_append_eq_append_take, List.map_append]
      exact List.mem_append_left _ hs
    · intro x _ y _ hx hy
      have hx' : x.1 ≤ rad := of_decide_eq_true hx
      have hy' : ¬ y.1 ≤ rad := of_decide_eq_false hy
      constructor
      · show x.1 ≤ y.1
        exact le_trans hx' (le_of_not_le hy')
      · show ¬ y.1 ≤ x.1
        intro habs
        exact hy' (le_trans habs hx')

/-- C6: `closest_to_list` returns a list sorted by non-decreasing
distance from the queried location (with or without a radius bound); under
a radius bound it contains only stops whose distance is at most the
radius; and it is monotone in the radius: every stop returned under a
radius bound is also returned, with the same `n`, when the bound is
dropped. The distance function is abstract: the properties hold for every
distance, in particular the Haversine one. -/
theorem c6_closest_stops (allStops : List BStop)
    (dist : (ℚ × ℚ) → (ℚ × ℚ) → ℚ) (location : ℚ × ℚ) (n : Nat)
    (radius : ℚ) :
    (∀ rad? : Option ℚ,
      (closest_to_list allStops dist location n rad?).Pairwise
        (fun s1 s2 => dist location s1.location ≤ dist location s2.location)) ∧
    (∀ s ∈ closest_to_list allStops dist location n (some radius),
      dist location s.location ≤ radius) ∧
    (∀ s ∈ closest_to_list allStops dist location n (some radius),
      s ∈ closest_to_list allStops dist location n none) := by
  refine ⟨?_, ?_, ?_⟩
  · intro rad?
    unfold closest_to_list
    split_ifs with hn
    · exact List.Pairwise.nil
    · refine closestFrom_sorted (fun s => dist location s.location) _ n ?_
      intro q hq
      cases rad? with
      | some r =>
          obtain ⟨s0, _, heq⟩ := List.mem_map.1 (List.mem_filter.1 hq).1
          rw [← heq]
      | none =>
          obtain ⟨s0, _, heq⟩ := List.mem_map.1 hq
          rw [← heq]
  · intro s hs
    unfold closest_to_list at hs
    split_ifs at hs with hn
    · exact absurd hs (List.not_mem_nil s)
    · obtain ⟨q, hq, hq2⟩ := closestFrom_mem _ n s hs
      obtain ⟨hqmem, hqle⟩ := List.mem_filter.1 hq
      obtain ⟨s0, _, heq⟩ := List.mem_map.1 hqmem
      have hkey : q.1 = dist location q.2.location := by rw [← heq]
      rw [← hq2, ← hkey]
      exact of_decide_eq_true hqle
  · intro s hs
    unfold closest_to_list at hs ⊢
    split_ifs at hs ⊢ with hn
    · exact absurd hs (List.not_mem_nil s)
    · exact closestFrom_filter_subset _ n radius s hs

/-- Witness for C6 on two concrete stops. -/
theorem c6_closest_stops_witness :
    ((closest_to_list [⟨"A", (0, 0)⟩, ⟨"B", (3, 0)⟩]
        (fun p q => |p.1 - q.1| + |p.2 - q.2|) (1, 0) 2 (some 2)).Pairwise
      (fun s1 s2 => |(1 : ℚ) - s1.location.1| + |(0 : ℚ) - s1.location.2| ≤
        |(1 : ℚ) - s2.location.1| + |(0 : ℚ) - s2.location.2|)) ∧
    (∀ s ∈ closest_to_list [⟨"A", (0, 0)⟩, ⟨"B", (3, 0)⟩]
        (fun p q => |p.1 - q.1| + |p.2 - q.2|) (1, 0) 2 (some 2),
      |(1 : ℚ) - s.location.1| + |(0 : ℚ) - s.location.2| ≤ 2) ∧
    (∀ s ∈ closest_to_list [⟨"A", (0, 0)⟩, ⟨"B", (3, 0)⟩]
        (fun p q => |p.1 - q.1| + |p.2 - q.2|) (1, 0) 2 (some 2),
      s ∈ closest_to_list [⟨"A", (0, 0)⟩, ⟨"B", (3, 0)⟩]
        (fun p q => |p.1 - q.1| + |p.2 - q.2|) (1, 0) 2 none) := by
  have h := c6_closest_stops [⟨"A", (0, 0)⟩, ⟨"B", (3, 0)⟩]
    (fun p q => |p.1 - q.1| + |p.2 - q.2|) (1, 0) 2 2
  exact ⟨h.1 (some 2), h.2.1, h.2.2⟩

/-! ### `BusSchedule.predicted_arrival` (C2) -/

/-- Python `datetime` attributes of an instant given in (possibly
fractional) seconds from midnight of the service day: `.hour`, `.minute`,
`.second` (sub-second precision truncated, hours wrapped at 24). -/
def hmsOfQ (t : ℚ) : Hms :=
  ⟨((⌊t⌋ / 3600) % 24).toNat, ((⌊t⌋ / 60) % 60).toNat, (⌊t⌋ % 60).toNat⟩

/-- Function `round_to_hh_mm(ts, round_down=True)`: keep the hour and the minute of
the instant and zero the seconds. -/
def roundDownHms (t : ℚ) : Hms :=
  ⟨((⌊t⌋ / 3600) % 24).toNat, ((⌊t⌋ / 60) % 60).toNat, 0⟩

/-- Method `BusTrip.has_consecutive_stops`, including the falsy-string special
cases of the source. -/
def BusTrip.has_consecutive_stops (t : BusTrip) (s1 s2 : String) : Bool :=
  if s1.isEmpty then decide (s2 ∈ t.stops)
  else if s2.isEmpty then decide (s1 ∈ t.stops)
  else decide ((s1, s2) ∈ t.consecutive_stops)

/-- Method `BusTrip.following_halt`: locate the first halt at `base_stop_id` in
the sequence-sorted halt list; return it, the halt right after it, and the
first subsequent halt at `stop_id` — or three `none`s when the base stop
or the queried stop is not found ahead. -/
def BusTrip.following_halt (t : BusTrip) (stop_id base_stop_id : String) :
    Option BusHalt × Option BusHalt × Option BusHalt :=
  match t.sorted_halts.findIdx? (fun q => decide (q.2.stop_id = base_stop_id)) with
  | none => (none, none, none)
  | some ix =>
      match t.sorted_halts.get? ix with
      | none => (none, none, none)
      | some base =>
          match (t.sorted_halts.drop (ix + 1)).find?
              (fun q => decide (q.2.stop_id = stop_id)) with
          | none => (none, none, none)
          | some found =>
              (some base.2, (t.sorted_halts.get? (ix + 1)).map Prod.snd,
                some found.2)

/-- The world of one `predicted_arrival` query after route resolution: the
trips of the route's services active today (in iteration order), the live
buses reported on the route, the stop table projected to locations
(`BusStop.lookup`), and the distance function. -/
structure PWorld where
  trips : List BusTrip
  buses : List Bus
  stopLocs : List (String × (ℚ × ℚ))
  dist : (ℚ × ℚ) → (ℚ × ℚ) → ℚ

/-- The per-bus progress ratio of `predicted_arrival`: `d_bus` and
`d_stops` as computed in the source (zero when a stop id is unknown),
passed through the clamped ratio. -/
def busRatioVal (w : PWorld) (bus : Bus) : ℚ :=
  d_ratio_val
    (match assocLookup bus.next_stop_id w.stopLocs with
      | some b => w.dist bus.location b
      | none => 0)
    (match assocLookup bus.stop_id w.stopLocs,
        assocLookup bus.next_stop_id w.stopLocs with
      | some a, some b => w.dist a b
      | _, _ => 0)

/-- The update `if direction not in result or estimated_arrival < result[direction]:
result[direction] = estimated_arrival`. -/
def updateEarliest (res : List (String × ℚ)) (k : String) (v : ℚ) :
    List (String × ℚ) :=
  match assocLookup k res with
  | none => assocSet res k v
  | some v0 => if v < v0 then assocSet res k v else res

/-- The body of the bus loop for one candidate trip: skip unless the bus's
(current stop, next stop) pair is consecutive on the trip and the queried
stop occurs after the bus's position; otherwise compute
`journey = time(last→next) * ratio + time(next→queried)` and keep
`bus.timestamp + journey` unless it is already before `now`, retaining the
earliest estimate per direction (keyed by the trip's terminus name). -/
def busTripStep (w : PWorld) (sid : String) (now : ℚ) (bus : Bus)
    (res : List (String × ℚ)) (trip : BusTrip) : List (String × ℚ) :=
  if ¬ (trip.has_consecutive_stops bus.stop_id bus.next_stop_id = true) then
    res
  else
    match trip.following_halt sid bus.stop_id with
    | (some last_halt, some next_halt, some our_halt) =>
        if bus.timestamp + ((last_halt.time_to next_halt : ℚ) *
            busRatioVal w bus + (next_halt.time_to our_halt : ℚ)) < now then
          res
        else
          updateEarliest res trip.last_stop_name
            (bus.timestamp + ((last_halt.time_to next_halt : ℚ) *
              busRatioVal w bus + (next_halt.time_to our_halt : ℚ)))
    | _ => res

/-- The bus loop of `predicted_arrival`: for each live bus, try every
candidate trip. -/
def busStep (w : PWorld) (sid : String) (now : ℚ) (trips : List BusTrip)
    (res : List (String × ℚ)) (bus : Bus) : List (String × ℚ) :=
  trips.foldl (busTripStep w sid now bus) res

/-- The `result` dict of `predicted_arrival` before the final rounding:
estimated arrivals per direction. -/
def predResult (w : PWorld) (sid : String) (now : ℚ) : List (String × ℚ) :=
  w.buses.foldl
    (busStep w sid now
      ((selectClosest (hmsOfQ now) sid w.trips).2.map Prod.snd)) []

/-- Method `BusSchedule.predicted_arrival` after route resolution: `none` when no
candidate trip exists or no estimate survives, otherwise one
rounded-DOWN time per direction. -/
def predicted_arrival (w : PWorld) (sid : String) (now : ℚ) :
    Option (List (String × List Hms)) :=
  if ((selectClosest (hmsOfQ now) sid w.trips).2).isEmpty then none
  else
    if (predResult w sid now).isEmpty then none
    else some ((predResult w sid now).map
      (fun p => (p.1, [roundDownHms p.2])))

theorem updateEarliest_forall (C : ℚ → Prop) (res : List (String × ℚ))
    (k : String) (v : ℚ) (hres : ∀ p ∈ res, C p.2) (hv : C v) :
    ∀ p ∈ updateEarliest res k v, C p.2 := by
  unfold updateEarliest
  cases hl : assocLookup k res with
  | none =>
      intro p hp
      rcases assocSet_mem res k v p hp with h | h
      · exact hres p h
      · rw [h]; exact hv
  | some v0 =>
      show ∀ p ∈ (if v < v0 then assocSet res k v else res), C p.2
      split_ifs with h
      · intro p hp
        rcases assocSet_mem res k v p hp with h' | h'
        · exact hres p h'
        · rw [h']; exact hv
      · exact hres

theorem busTripStep_ge (w : PWorld) (sid : String) (now : ℚ) (bus : Bus)
    (res : List (String × ℚ)) (trip : BusTrip)
    (hres : ∀ p ∈ res, now ≤ p.2) :
    ∀ p ∈ busTripStep w sid now bus res trip, now ≤ p.2 := by
  unfold busTripStep
  by_cases h1 : trip.has_consecutive_stops bus.stop_id bus.next_stop_id = true
  · rw [if_neg (not_not_intro h1)]
    split
    · split_ifs with h2
      · exact hres
      · exact updateEarliest_forall (fun v => now ≤ v) res _ _ hres
          (not_lt.1 h2)
    · exact hres
  · rw [if_pos h1]
    exact hres

/-- Every estimate retained in the result dict survived the
`estimated_arrival < now` discard, so it is at least `now`. -/
theorem predResult_ge_now (w : PWorld) (sid : String) (now : ℚ) :
    ∀ p ∈ predResult w sid now, now ≤ p.2 := by
  unfold predResult
  refine foldl_preserve
    (fun (res : List (String × ℚ)) => ∀ p ∈ res, now ≤ p.2) _ ?_ w.buses []
    (fun p hp => absurd hp (List.not_mem_nil p))
  intro res bus hres
  exact foldl_preserve
    (fun (res : List (String × ℚ)) => ∀ p ∈ res, now ≤ p.2)
    (busTripStep w sid now bus)
    (fun res' trip hres' => busTripStep_ge w sid now bus res' trip hres')
    _ res hres

theorem roundDown_sec_ge (v now : ℚ) (h0 : 0 ≤ now) (hnv : now ≤ v)
    (hv : v < 86400) :
    60 * (⌊now⌋ / 60) ≤ (secOfHms (roundDownHms v) : Int) := by
  have hfl : ⌊now⌋ ≤ ⌊v⌋ := Int.floor_le_floor hnv
  have h0M : 0 ≤ ⌊now⌋ := Int.floor_nonneg.2 h0
  have hub : ⌊v⌋ < 86400 := Int.floor_lt.2 (by exact_mod_cast hv)
  have e1 : (((⌊v⌋ / 3600) % 24).toNat : Int) = (⌊v⌋ / 3600) % 24 :=
    Int.toNat_of_nonneg (Int.emod_nonneg _ (by norm_num))
  have e2 : (((⌊v⌋ / 60) % 60).toNat : Int) = (⌊v⌋ / 60) % 60 :=
    Int.toNat_of_nonneg (Int.emod_nonneg _ (by norm_num))
  unfold roundDownHms secOfHms
  push_cast [e1, e2]
  omega

/-- C2 (amended): every estimate that `predicted_arrival` retains is at
least the query's "now" (already-past estimates are discarded), and after
the final rounding DOWN to the whole minute every returned per-direction
time is never before the START of the minute containing "now": read as an
instant it is at least `60 * (⌊now⌋ / 60)` seconds. It can therefore be up
to 59 seconds before "now" itself — but never a full minute — whenever
"now" has a nonzero seconds part (the claim as stated is refuted by the
counterexample). The estimates are assumed to fall within the query's
service day, as is `now`. -/
theorem c2_rounded_not_before_minute (w : PWorld) (sid : String) (now : ℚ)
    (out : List (String × List Hms)) (h0 : 0 ≤ now)
    (hday : ∀ p ∈ predResult w sid now, p.2 < 86400)
    (hret : predicted_arrival w sid now = some out) :
    ∀ q ∈ out, ∀ hms ∈ q.2, 60 * (⌊now⌋ / 60) ≤ (secOfHms hms : Int) := by
  unfold predicted_arrival at hret
  by_cases hc1 : ((selectClosest (hmsOfQ now) sid w.trips).2).isEmpty = true
  · rw [if_pos hc1] at hret
    exact Option.noConfusion hret
  · rw [if_neg hc1] at hret
    by_cases hc2 : (predResult w sid now).isEmpty = true
    · rw [if_pos hc2] at hret
      exact Option.noConfusion hret
    · rw [if_neg hc2] at hret
      have hout : (predResult w sid now).map
          (fun p => (p.1, [roundDownHms p.2])) = out := Option.some.inj hret
      intro q hq hms hhms
      rw [← hout] at hq
      obtain ⟨p, hp, heq⟩ := List.mem_map.1 hq
      have hq2 : q.2 = [roundDownHms p.2] := (congrArg Prod.snd heq).symm
      rw [hq2] at hhms
      have : hms = roundDownHms p.2 := List.mem_singleton.1 hhms
      rw [this]
      exact roundDown_sec_ge p.2 now h0 (predResult_ge_now w sid now p hp)
        (hday p hp)

/-- The live bus of the concrete prediction scenario: at stop A, next stop
B, located exactly at B, reported at 08:00:30 (28830 s). -/
def busC2 : Bus :=
  { route_id := "ST.1", stop_id := "A", next_stop_id := "B",
    location := (1, 0), heading := 0, code := 6, timestamp := 28830 }

/-- The concrete prediction world: the trip `tripEx` (A, B, C at 07:58:00,
08:00:00, 08:00:10), one bus, taxicab distances on rational coordinates. -/
def worldC2 : PWorld :=
  { trips := [tripEx]
    buses := [busC2]
    stopLocs := [("A", (0, 0)), ("B", (1, 0)), ("C", (2, 0))]
    dist := fun p q => |p.1 - q.1| + |p.2 - q.2| }

theorem hmsOfQ_28830 : hmsOfQ (28830 : ℚ) = ⟨8, 0, 30⟩ := by
  have hf : (⌊(28830 : ℚ)⌋ : Int) = 28830 := by norm_num
  unfold hmsOfQ
  rw [hf]
  rfl

theorem busRatioVal_worldC2 : busRatioVal worldC2 busC2 = 0 := by
  have h1 : assocLookup "B" worldC2.stopLocs = some ((1 : ℚ), (0 : ℚ)) := by
    simp [worldC2, assocLookup]
  have h2 : assocLookup "A" worldC2.stopLocs = some ((0 : ℚ), (0 : ℚ)) := by
    simp [worldC2, assocLookup]
  unfold busRatioVal
  rw [show busC2.next_stop_id = "B" from rfl, show busC2.stop_id = "A" from rfl,
    h1, h2]
  show d_ratio_val (worldC2.dist busC2.location (1, 0))
    (worldC2.dist (0, 0) (1, 0)) = 0
  have hd1 : worldC2.dist busC2.location (1, 0) = 0 := by
    show |(1 : ℚ) - 1| + |(0 : ℚ) - 0| = 0
    norm_num
  have hd2 : worldC2.dist (0, 0) (1, 0) = 1 := by
    show |(0 : ℚ) - 1| + |(0 : ℚ) - 0| = 1
    norm_num
  rw [hd1, hd2]
  unfold d_ratio_val
  norm_num

theorem predResult_worldC2 :
    predResult worldC2 "C" 28830 = [("C", (28840 : ℚ))] := by
  have hsel : ((selectClosest (hmsOfQ (28830 : ℚ)) "C" worldC2.trips).2.map
      Prod.snd) = [tripEx] := by
    rw [hmsOfQ_28830]
    decide
  unfold predResult
  rw [hsel]
  show busStep worldC2 "C" 28830 [tripEx] [] busC2 = [("C", (28840 : ℚ))]
  unfold busStep
  show busTripStep worldC2 "C" 28830 busC2 [] tripEx = [("C", (28840 : ℚ))]
  unfold busTripStep
  rw [if_neg (by decide)]
  rw [show tripEx.following_halt "C" busC2.stop_id =
    (some haltA, some haltB, some haltC) from by decide]
  show (if busC2.timestamp + ((haltA.time_to haltB : ℚ) *
      busRatioVal worldC2 busC2 + (haltB.time_to haltC : ℚ)) < 28830 then []
    else updateEarliest [] tripEx.last_stop_name
      (busC2.timestamp + ((haltA.time_to haltB : ℚ) *
        busRatioVal worldC2 busC2 + (haltB.time_to haltC : ℚ)))) =
    [("C", (28840 : ℚ))]
  have htt1 : (haltA.time_to haltB : ℚ) = 120 := by
    norm_num [BusHalt.time_to, haltA, haltB, secOfHms]
  have htt2 : (haltB.time_to haltC : ℚ) = 10 := by
    norm_num [BusHalt.time_to, haltB, haltC, secOfHms]
  have hts : busC2.timestamp = (28830 : ℚ) := rfl
  rw [htt1, htt2, busRatioVal_worldC2, hts]
  rw [if_neg (by norm_num)]
  show updateEarliest [] "C" (28830 + (120 * 0 + 10)) = [("C", (28840 : ℚ))]
  rw [show (28830 : ℚ) + (120 * 0 + 10) = 28840 by norm_num]
  rfl

theorem predicted_arrival_worldC2 :
    predicted_arrival worldC2 "C" 28830 = some [("C", [⟨8, 0, 0⟩])] := by
  unfold predicted_arrival
  rw [predResult_worldC2]
  rw [if_neg (by rw [hmsOfQ_28830]; decide), if_neg (by decide)]
  have hr : roundDownHms (28840 : ℚ) = ⟨8, 0, 0⟩ := by
    have hf : (⌊(28840 : ℚ)⌋ : Int) = 28840 := by norm_num
    unfold roundDownHms
    rw [hf]
    rfl
  rw [List.map_cons, List.map_nil, hr]

/-- Counterexample to C2 as stated: at "now" = 08:00:30 the concrete world
yields the estimate 08:00:40 (not before "now"), but the final rounding
down to the whole minute returns 08:00:00, which IS strictly before the
query's "now", both as a clock tuple and as an instant. -/
theorem c2_returns_time_before_now_counterexample :
    predicted_arrival worldC2 "C" 28830 = some [("C", [⟨8, 0, 0⟩])] ∧
    hmsLt ⟨8, 0, 0⟩ (hmsOfQ 28830) = true ∧
    (secOfHms ⟨8, 0, 0⟩ : ℚ) < 28830 := by
  refine ⟨predicted_arrival_worldC2, ?_, ?_⟩
  · rw [hmsOfQ_28830]
    decide
  · norm_num [secOfHms]

/-- Witness for the amended C2 on the concrete world. -/
theorem c2_rounded_not_before_minute_witness :
    60 * (⌊(28830 : ℚ)⌋ / 60) ≤ (secOfHms ⟨8, 0, 0⟩ : Int) :=
  c2_rounded_not_before_minute worldC2 "C" 28830 [("C", [⟨8, 0, 0⟩])]
    (by norm_num)
    (by rw [predResult_worldC2]
        intro p hp
        rw [List.mem_singleton.1 hp]
        norm_num)
    predicted_arrival_worldC2
    ("C", [⟨8, 0, 0⟩]) (by decide) ⟨8, 0, 0⟩ (by decide)
